import Mathlib

set_option maxHeartbeats 1000000

/-!
Verification development for the pyinterpolate geostatistical core
(empirical semivariogram, theoretical model, Ordinary / Simple Kriging).

The repository snapshot contains only documentation (the tutorial notebook
with its recorded outputs and the io_ops reference page); the implementation
modules themselves are not present.  Following the specification, the core
algorithms are modelled here directly from the spec's own algorithm
descriptions (sections 4.1, 4.2 and 4.4), with the notebook's recorded
outputs used as the authoritative record of the returned tuples.

Coordinates and values are rationals (the spec describes exact planar
Euclidean geometry; rationals keep every stage computable), while kriging
weights and semivariogram model evaluation live in the real numbers.
-/

/-- A known sample point: planar coordinates plus a scalar value
(spec section 3, SamplePoint). -/
structure SampleP where
  x : ℚ
  y : ℚ
  value : ℚ
deriving DecidableEq, Repr

/-- Squared planar Euclidean distance between two sample points. -/
def d2 (p q : SampleP) : ℚ :=
  (p.x - q.x) ^ 2 + (p.y - q.y) ^ 2

/-- Squared planar Euclidean distance from a query location to a sample point. -/
def d2q (q : ℚ × ℚ) (p : SampleP) : ℚ :=
  (q.1 - p.x) ^ 2 + (q.2 - p.y) ^ 2

/-- Planar Euclidean distance between two sample points. -/
noncomputable def distP (p q : SampleP) : ℝ :=
  Real.sqrt ((d2 p q : ℚ) : ℝ)

/-- Planar Euclidean distance from a query location to a sample point. -/
noncomputable def distQ (q : ℚ × ℚ) (p : SampleP) : ℝ :=
  Real.sqrt ((d2q q p : ℚ) : ℝ)

/-- Modelled from the spec (section 4.2): the lag-bin index of a pair at
squared distance d2v is floor(d / step_size).  Over the rationals this is
computed as the natural square root of the floor of d2v / step_size^2;
the lemma binOf_eq_floor below shows this equals the real floor(d/step). -/
def binOf (step d2v : ℚ) : ℕ :=
  Nat.sqrt (Int.toNat ⌊d2v / step ^ 2⌋)

/-- All ordered pairs of positionally distinct points, each unordered pair
enumerated exactly once (earlier point first). -/
def pairsOf : List SampleP → List (SampleP × SampleP)
  | [] => []
  | p :: ps => ps.map (fun r => (p, r)) ++ pairsOf ps

/-- Modelled from the spec (section 4.2): a pair qualifies when its
Euclidean distance d satisfies d ≤ max_range, expressed over the rationals
as d2 ≤ max_range^2. -/
def keptPairs (pts : List SampleP) (maxr : ℚ) : List (SampleP × SampleP) :=
  (pairsOf pts).filter (fun pq => d2 pq.1 pq.2 ≤ maxr ^ 2)

/-- Number of qualifying pairs falling into lag bin b. -/
def pairCountIn (pts : List SampleP) (step maxr : ℚ) (b : ℕ) : ℕ :=
  ((keptPairs pts maxr).filter (fun pq => binOf step (d2 pq.1 pq.2) = b)).length

/-- Sum of squared value differences over the qualifying pairs of lag bin b. -/
def sqDiffSumIn (pts : List SampleP) (step maxr : ℚ) (b : ℕ) : ℚ :=
  (((keptPairs pts maxr).filter (fun pq => binOf step (d2 pq.1 pq.2) = b)).map
    (fun pq => (pq.1.value - pq.2.value) ^ 2)).sum

/-- Largest bin index a qualifying pair can occupy. -/
def maxBinIdx (step maxr : ℚ) : ℕ :=
  binOf step (maxr ^ 2)

/-- Modelled from the spec (section 4.2, calculate_semivariance; the
implementation module is absent from the snapshot): for every unordered
pair of distinct points with distance d ≤ max_range, accumulate the squared
value difference into bin floor(d/step_size); each non-empty bin yields
(bin index, semivariance = sum / (2 * pair_count), pair_count); empty bins
are omitted. -/
def calculate_semivariance (pts : List SampleP) (step maxr : ℚ) :
    List (ℕ × ℚ × ℕ) :=
  (List.range (maxBinIdx step maxr + 1)).filterMap (fun b =>
    if pairCountIn pts step maxr b = 0 then none
    else some (b, sqDiffSumIn pts step maxr b / (2 * (pairCountIn pts step maxr b : ℚ)),
      pairCountIn pts step maxr b))

/-- Modelled from the spec (section 3 invariant): the number of lag bins
covering the interval from 0 to max_range is ceil(max_range / step_size). -/
def numBinsSpec (step maxr : ℚ) : ℕ :=
  Int.toNat ⌈maxr / step⌉

/-- Scenario B input: four collinear points spaced one unit apart. -/
def pts4 : List SampleP := [⟨0, 0, 0⟩, ⟨1, 0, 1⟩, ⟨2, 0, 2⟩, ⟨3, 0, 3⟩]

/-- The tuple returned by a kriging prediction, in the order recorded in the
tutorial notebook: estimated value, error variance, reported mean, weight
vector.  In the notebook's recorded Ordinary Kriging output the third
element equals the final entry of the weight vector. -/
structure PredictionResult where
  value : ℝ
  variance : ℝ
  mean : ℝ
  weights : List ℝ

/-- Modelled from the spec (section 4.4, Ordinary Kriging step 2; the
kriging module is absent from the snapshot): the (k+1) x (k+1) system
matrix, whose top-left k x k block holds the model semivariance of every
neighbor pair, whose last row and column (except the corner) are all 1,
and whose corner is 0. -/
noncomputable def okMatrix (γ : ℝ → ℝ) {k : ℕ} (ns : Fin k → SampleP) :
    Matrix (Fin (k + 1)) (Fin (k + 1)) ℝ := fun i j =>
  if hi : i = Fin.last k then (if j = Fin.last k then 0 else 1)
  else if hj : j = Fin.last k then 1
  else γ (distP (ns (i.castPred hi)) (ns (j.castPred hj)))

/-- Modelled from the spec (section 4.4, Ordinary Kriging step 3): the
right-hand vector, the model semivariance of the query-to-neighbor
distances, plus a final entry of 1. -/
noncomputable def okRhs (γ : ℝ → ℝ) {k : ℕ} (ns : Fin k → SampleP) (q : ℚ × ℚ) :
    Fin (k + 1) → ℝ := fun i =>
  if hi : i = Fin.last k then 1 else γ (distQ q (ns (i.castPred hi)))

/-- A weight/multiplier vector solves the Ordinary Kriging system. -/
def okSolves (γ : ℝ → ℝ) {k : ℕ} (ns : Fin k → SampleP) (q : ℚ × ℚ)
    (w : Fin (k + 1) → ℝ) : Prop :=
  (okMatrix γ ns).mulVec w = okRhs γ ns q

/-- Modelled from the spec (section 4.4, Ordinary Kriging step 5) together
with the notebook's recorded output: the returned tuple carries the
estimate (the weighted sum of neighbor values), the error variance, the
reported mean (per the recorded output, the final solved unknown, i.e. the
Lagrange multiplier), and the full solved vector as the weights. -/
noncomputable def mkOkResult (γ : ℝ → ℝ) {k : ℕ} (ns : Fin k → SampleP) (q : ℚ × ℚ)
    (w : Fin (k + 1) → ℝ) : PredictionResult where
  value := ∑ i : Fin k, w i.castSucc * ((ns i).value : ℝ)
  variance := (∑ i : Fin k, w i.castSucc * γ (distQ q (ns i))) + w (Fin.last k)
  mean := w (Fin.last k)
  weights := List.ofFn w

/-- Modelled from the spec (section 4.4, Simple Kriging step 2): the k x k
system matrix of neighbor-pair semivariances, with no constraint row. -/
noncomputable def skMatrix (γ : ℝ → ℝ) {k : ℕ} (ns : Fin k → SampleP) :
    Matrix (Fin k) (Fin k) ℝ := fun i j => γ (distP (ns i) (ns j))

/-- Modelled from the spec (section 4.4, Simple Kriging step 3): the
right-hand vector of query-to-neighbor semivariances, no trailing 1. -/
noncomputable def skRhs (γ : ℝ → ℝ) {k : ℕ} (ns : Fin k → SampleP) (q : ℚ × ℚ) :
    Fin k → ℝ := fun i => γ (distQ q (ns i))

/-- A weight vector solves the Simple Kriging system. -/
def skSolves (γ : ℝ → ℝ) {k : ℕ} (ns : Fin k → SampleP) (q : ℚ × ℚ)
    (w : Fin k → ℝ) : Prop :=
  (skMatrix γ ns).mulVec w = skRhs γ ns q

/-- Modelled from the spec (section 4.4, Simple Kriging step 5): estimate
global_mean + sum of weighted residuals, variance the weighted sum of
query-to-neighbor semivariances, reported mean echoing the supplied
global_mean. -/
noncomputable def mkSkResult (γ : ℝ → ℝ) {k : ℕ} (ns : Fin k → SampleP) (q : ℚ × ℚ)
    (m : ℝ) (w : Fin k → ℝ) : PredictionResult where
  value := m + ∑ i : Fin k, w i * (((ns i).value : ℝ) - m)
  variance := ∑ i : Fin k, w i * γ (distQ q (ns i))
  mean := m
  weights := List.ofFn w

/-- Modelled from the spec (section 4.1): the known points ordered by
distance to the query; the insertion sort by nondecreasing squared distance
is stable, so ties are broken by first-seen input order. -/
def sortedByDist (pts : List SampleP) (q : ℚ × ℚ) : List SampleP :=
  List.insertionSort (fun a b => d2q q a ≤ d2q q b) pts

/-- Modelled from the spec (section 4.1): the k nearest points, where
k = min(max_no_neighbors, number of known points). -/
def nearestNeighbors (pts : List SampleP) (q : ℚ × ℚ) (maxN : ℕ) : List SampleP :=
  (sortedByDist pts q).take maxN

/-- Ordinary Kriging prediction relative to a fixed neighbor list: some
vector solves the bordered system and the result tuple is assembled from
it. -/
def okPredictOn (γ : ℝ → ℝ) (ns : List SampleP) (q : ℚ × ℚ)
    (r : PredictionResult) : Prop :=
  ∃ w : Fin (ns.length + 1) → ℝ, okSolves γ ns.get q w ∧ r = mkOkResult γ ns.get q w

/-- Modelled from the spec (section 4.4) and the notebook's recorded
Krige.ordinary_kriging output: select the nearest neighbors, solve the
bordered (k+1) system, return (value, variance, mean, weights). -/
def ordinary_kriging (γ : ℝ → ℝ) (pts : List SampleP) (q : ℚ × ℚ) (maxN : ℕ)
    (r : PredictionResult) : Prop :=
  okPredictOn γ (nearestNeighbors pts q maxN) q r

/-- Simple Kriging prediction relative to a fixed neighbor list. -/
def skPredictOn (γ : ℝ → ℝ) (ns : List SampleP) (q : ℚ × ℚ) (m : ℝ)
    (r : PredictionResult) : Prop :=
  ∃ w : Fin ns.length → ℝ, skSolves γ ns.get q w ∧ r = mkSkResult γ ns.get q m w

/-- Modelled from the spec (section 4.4) and the notebook's recorded
Krige.simple_kriging output: select the nearest neighbors, solve the k x k
system, return (value, variance, global mean, weights). -/
def simple_kriging (γ : ℝ → ℝ) (pts : List SampleP) (q : ℚ × ℚ) (m : ℝ)
    (maxN : ℕ) (r : PredictionResult) : Prop :=
  skPredictOn γ (nearestNeighbors pts q maxN) q m r

/-- The error taxonomy of spec section 7. -/
inductive KrigingError where
  | insufficientData
  | noFeasibleModel
  | singularSystem
  | invalidModel
deriving DecidableEq, Repr

/-- Modelled from the spec (sections 4.4 and 7; the implementation is
absent from the snapshot): post-processing of a computed kriging error
variance against a small positive tolerance.  A nonnegative variance passes
through unchanged; a variance negative by at most the tolerance is clamped
to zero and flagged as a numerical warning (the Bool component); a variance
below the negated tolerance raises InvalidModelError. -/
def postprocessVariance (tol v : ℚ) : Except KrigingError (ℚ × Bool) :=
  if 0 ≤ v then Except.ok (v, false)
  else if -tol ≤ v then Except.ok (0, true)
  else Except.error KrigingError.invalidModel

/-- Linear semivariogram model with zero nugget and unit slope. -/
def gammaLin : ℝ → ℝ := fun h => h

def P0 : SampleP := ⟨0, 0, 0⟩

def P2 : SampleP := ⟨2, 0, 4⟩

def q1 : ℚ × ℚ := (1, 0)

/-- The Ordinary Kriging result on the demonstration data. -/
noncomputable def demoRes : PredictionResult :=
  mkOkResult gammaLin (fun i : Fin 2 => [P0, P2].get i) q1 ![1/2, 1/2, 0]

/-- The Simple Kriging result on the demonstration data with global mean 3. -/
noncomputable def demoSkRes : PredictionResult :=
  mkSkResult gammaLin (fun i : Fin 2 => [P0, P2].get i) q1 3 ![1/2, 1/2]

def gammaNug : ℝ → ℝ := fun h => 1 + h

def P5 : SampleP := ⟨0, 0, 5⟩

def P7 : SampleP := ⟨1, 0, 7⟩

def q00 : ℚ × ℚ := (0, 0)

def pts3 : List SampleP := [⟨0, 0, 1⟩, ⟨3, 0, 2⟩, ⟨1, 0, 3⟩]

theorem d2_nonneg (p q : SampleP) : 0 ≤ d2 p q := by
  unfold d2; positivity

theorem d2q_nonneg (q : ℚ × ℚ) (p : SampleP) : 0 ≤ d2q q p := by
  unfold d2q; positivity

theorem d2_comm (p q : SampleP) : d2 p q = d2 q p := by
  unfold d2; ring

theorem d2_self (p : SampleP) : d2 p p = 0 := by
  unfold d2; ring

theorem distP_self (p : SampleP) : distP p p = 0 := by
  unfold distP; rw [d2_self]; simp

theorem distP_comm (p q : SampleP) : distP p q = distP q p := by
  unfold distP; rw [d2_comm]

/-- For a nonnegative real, the floor of x is the natural square root of
the floor of x squared. -/
theorem floor_eq_sqrt_floor_sq (x : ℝ) (hx : 0 ≤ x) :
    ⌊x⌋ = (Nat.sqrt (Int.toNat ⌊x ^ 2⌋) : ℤ) := by
  have h0 : (0 : ℤ) ≤ ⌊x⌋ := Int.floor_nonneg.mpr hx
  set n : ℕ := Int.toNat ⌊x⌋ with hn
  have hfx : ⌊x⌋ = (n : ℤ) := (Int.toNat_of_nonneg h0).symm
  have hnx : (n : ℝ) ≤ x := by
    have := Int.floor_le x
    rw [hfx] at this
    exact_mod_cast this
  have hxn : x < (n : ℝ) + 1 := by
    have := Int.lt_floor_add_one x
    rw [hfx] at this
    exact_mod_cast this
  have h1 : ((n * n : ℕ) : ℤ) ≤ ⌊x ^ 2⌋ := by
    rw [Int.le_floor]
    push_cast
    nlinarith
  have h2 : ⌊x ^ 2⌋ < (((n + 1) * (n + 1) : ℕ) : ℤ) := by
    rw [Int.floor_lt]
    push_cast
    nlinarith
  have h3 : n * n ≤ Int.toNat ⌊x ^ 2⌋ := by omega
  have h4 : Int.toNat ⌊x ^ 2⌋ < (n + 1) * (n + 1) := by omega
  have hle : n ≤ Nat.sqrt (Int.toNat ⌊x ^ 2⌋) := Nat.le_sqrt.mpr h3
  have hlt : Nat.sqrt (Int.toNat ⌊x ^ 2⌋) < n + 1 := Nat.sqrt_lt.mpr h4
  have : Nat.sqrt (Int.toNat ⌊x ^ 2⌋) = n := by omega
  rw [this, hfx]

/-- The computable rational bin index agrees with the spec's
floor(distance / step_size) over the reals. -/
theorem binOf_eq_floor (step : ℚ) (hs : 0 < step) (d2v : ℚ) (hd : 0 ≤ d2v) :
    (binOf step d2v : ℤ) = ⌊Real.sqrt ((d2v : ℚ) : ℝ) / ((step : ℚ) : ℝ)⌋ := by
  have hsR : (0 : ℝ) < (step : ℝ) := by exact_mod_cast hs
  have hdR : (0 : ℝ) ≤ ((d2v : ℚ) : ℝ) := by exact_mod_cast hd
  have hx : (0 : ℝ) ≤ Real.sqrt ((d2v : ℚ) : ℝ) / ((step : ℚ) : ℝ) :=
    div_nonneg (Real.sqrt_nonneg _) hsR.le
  rw [floor_eq_sqrt_floor_sq _ hx]
  have hsq : (Real.sqrt ((d2v : ℚ) : ℝ) / ((step : ℚ) : ℝ)) ^ 2
      = ((d2v / step ^ 2 : ℚ) : ℝ) := by
    rw [div_pow, Real.sq_sqrt hdR]
    push_cast
    ring
  rw [hsq, Rat.floor_cast]
  rfl

/-- The bin index is monotone in the squared distance. -/
theorem binOf_mono (step : ℚ) (hs : 0 < step) {a b : ℚ} (hab : a ≤ b) :
    binOf step a ≤ binOf step b := by
  unfold binOf
  apply Nat.sqrt_le_sqrt
  apply Int.toNat_le_toNat
  apply Int.floor_le_floor
  gcongr

/-- Membership in the pair enumeration is exactly being a length-two
sublist: a pair of points at positions i < j of the input. -/
theorem pairsOf_mem (pts : List SampleP) (a b : SampleP) :
    (a, b) ∈ pairsOf pts ↔ [a, b].Sublist pts := by
  induction pts with
  | nil => simp [pairsOf]
  | cons p ps ih =>
    simp only [pairsOf, List.mem_append, List.mem_map]
    constructor
    · rintro (⟨r, hr, heq⟩ | h)
      · obtain ⟨rfl, rfl⟩ : a = p ∧ b = r := by
          constructor <;> [exact (congrArg Prod.fst heq).symm; exact (congrArg Prod.snd heq).symm]
        exact List.Sublist.cons₂ _ (List.singleton_sublist.mpr hr)
      · exact List.Sublist.cons _ (ih.mp h)
    · intro h
      rcases List.sublist_cons_iff.mp h with h' | ⟨r', hr', hsub⟩
      · exact Or.inr (ih.mpr h')
      · obtain rfl : a = p := by injection hr'
        obtain rfl : [b] = r' := by injection hr'
        exact Or.inl ⟨b, List.singleton_sublist.mp hsub, rfl⟩

/-- The pair enumeration has exactly (n choose 2) entries. -/
theorem pairsOf_length (pts : List SampleP) :
    (pairsOf pts).length = Nat.choose pts.length 2 := by
  induction pts with
  | nil => simp [pairsOf]
  | cons p ps ih =>
    simp only [pairsOf, List.length_append, List.length_map, ih, List.length_cons]
    rw [Nat.choose_succ_succ]
    simp [Nat.choose_one_right, Nat.add_comm]

/-- Qualification by squared distance is exactly qualification by Euclidean
distance. -/
theorem kept_iff_dist_le (maxr : ℚ) (hm : 0 ≤ maxr) (p r : SampleP) :
    d2 p r ≤ maxr ^ 2 ↔ distP p r ≤ ((maxr : ℚ) : ℝ) := by
  have hmR : (0 : ℝ) ≤ ((maxr : ℚ) : ℝ) := by exact_mod_cast hm
  have hdR : (0 : ℝ) ≤ ((d2 p r : ℚ) : ℝ) := by exact_mod_cast d2_nonneg p r
  constructor
  · intro h
    have hR : ((d2 p r : ℚ) : ℝ) ≤ ((maxr : ℚ) : ℝ) ^ 2 := by exact_mod_cast h
    have := Real.sqrt_le_sqrt hR
    rwa [Real.sqrt_sq hmR] at this
  · intro h
    have h2 : ((d2 p r : ℚ) : ℝ) ≤ ((maxr : ℚ) : ℝ) ^ 2 := by
      have := pow_le_pow_left₀ (Real.sqrt_nonneg _) h 2
      rwa [Real.sq_sqrt hdR] at this
    exact_mod_cast h2

/-- The largest reachable bin index is floor(max_range / step_size). -/
theorem maxBinIdx_eq (step maxr : ℚ) (hs : 0 < step) (hm : 0 ≤ maxr) :
    maxBinIdx step maxr = Int.toNat ⌊maxr / step⌋ := by
  have ht : (0 : ℚ) ≤ maxr / step := div_nonneg hm hs.le
  have htR : (0 : ℝ) ≤ ((maxr / step : ℚ) : ℝ) := by exact_mod_cast ht
  have hkey : ⌊((maxr / step : ℚ) : ℝ)⌋
      = (Nat.sqrt (Int.toNat ⌊((maxr / step : ℚ) : ℝ) ^ 2⌋) : ℤ) :=
    floor_eq_sqrt_floor_sq _ htR
  have h1 : ⌊((maxr / step : ℚ) : ℝ)⌋ = ⌊maxr / step⌋ := Rat.floor_cast _
  have h2 : (((maxr / step : ℚ) : ℝ)) ^ 2 = (((maxr / step) ^ 2 : ℚ) : ℝ) := by
    push_cast; ring
  rw [h1, h2, Rat.floor_cast] at hkey
  have h3 : (maxr / step) ^ 2 = maxr ^ 2 / step ^ 2 := by
    rw [div_pow]
  rw [h3] at hkey
  unfold maxBinIdx binOf
  omega

/-- C4: the empirical semivariogram calculator enumerates every unordered
pair of distinct points (membership in the enumeration is exactly being a
length-two sublist, and the enumeration has n choose 2 entries), keeps a
pair exactly when its Euclidean distance is at most max_range, assigns it
to the bin floor(distance / step_size), and the output contains exactly the
non-empty bins, each carrying semivariance = (sum of squared value
differences) / (2 * pair_count). -/
theorem semivariance_characterization (pts : List SampleP) (step maxr : ℚ)
    (hs : 0 < step) (hm : 0 ≤ maxr) :
    (∀ a b : SampleP, ((a, b) ∈ pairsOf pts ↔ [a, b].Sublist pts)) ∧
    (pairsOf pts).length = Nat.choose pts.length 2 ∧
    (∀ p r : SampleP, (d2 p r ≤ maxr ^ 2 ↔ distP p r ≤ ((maxr : ℚ) : ℝ))) ∧
    (∀ p r : SampleP, (binOf step (d2 p r) : ℤ) = ⌊distP p r / ((step : ℚ) : ℝ)⌋) ∧
    (∀ b s c, ((b, s, c) ∈ calculate_semivariance pts step maxr ↔
        pairCountIn pts step maxr b = c ∧ c ≠ 0 ∧
          s = sqDiffSumIn pts step maxr b / (2 * (c : ℚ)))) := by
  refine ⟨pairsOf_mem pts, pairsOf_length pts, kept_iff_dist_le maxr hm, ?_, ?_⟩
  · intro p r
    exact binOf_eq_floor step hs (d2 p r) (d2_nonneg p r)
  · intro b s c
    constructor
    · intro hmem
      rcases List.mem_filterMap.mp hmem with ⟨a, _, hfa⟩
      by_cases hz : pairCountIn pts step maxr a = 0
      · rw [if_pos hz] at hfa; cases hfa
      · rw [if_neg hz] at hfa
        obtain ⟨rfl, rfl, rfl⟩ :
            a = b ∧ sqDiffSumIn pts step maxr a / (2 * (pairCountIn pts step maxr a : ℚ)) = s
              ∧ pairCountIn pts step maxr a = c := by
          have h1 := congrArg Prod.fst (Option.some.inj hfa)
          have h2 := congrArg (fun t => t.2.1) (Option.some.inj hfa)
          have h3 := congrArg (fun t => t.2.2) (Option.some.inj hfa)
          exact ⟨h1, h2, h3⟩
        exact ⟨rfl, hz, rfl⟩
    · rintro ⟨rfl, hc, rfl⟩
      apply List.mem_filterMap.mpr
      refine ⟨b, ?_, ?_⟩
      · apply List.mem_range.mpr
        have hpos : 0 < pairCountIn pts step maxr b := Nat.pos_of_ne_zero hc
        have : ((keptPairs pts maxr).filter
            (fun pq => binOf step (d2 pq.1 pq.2) = b)) ≠ [] := by
          intro hnil
          rw [pairCountIn, hnil] at hpos
          simp at hpos
        obtain ⟨pq, hpq⟩ := List.exists_mem_of_ne_nil _ this
        have hmem := List.mem_filter.mp hpq
        have hkept := List.mem_filter.mp hmem.1
        have hble : d2 pq.1 pq.2 ≤ maxr ^ 2 := by
          have := hkept.2; simpa using this
        have hbin : binOf step (d2 pq.1 pq.2) = b := by
          have := hmem.2; simpa using this
        have : b ≤ maxBinIdx step maxr := by
          rw [← hbin]
          exact binOf_mono step hs hble
        omega
      · rw [if_neg hc]

theorem natSqrt_eq_of {m n : ℕ} (h1 : n * n ≤ m) (h2 : m < (n + 1) * (n + 1)) :
    Nat.sqrt m = n := by
  have ha := Nat.le_sqrt.mpr h1
  have hb := Nat.sqrt_lt.mpr h2
  omega

/-- Evaluation rule for the bin index at unit step size. -/
theorem binOf_eval (d2v : ℚ) (n : ℕ) (h1 : (n:ℚ) * n ≤ d2v)
    (h2 : d2v < ((n:ℚ) + 1) * ((n:ℚ) + 1)) :
    binOf 1 d2v = n := by
  unfold binOf
  norm_num
  apply natSqrt_eq_of
  · obtain ⟨M, hM⟩ : ∃ M : ℕ, M = n * n := ⟨_, rfl⟩
    rw [← hM]
    have h0 : ((M : ℕ) : ℚ) ≤ d2v := by rw [hM]; push_cast; exact h1
    have h3 : ((M : ℕ) : ℤ) ≤ ⌊d2v⌋ := Int.le_floor.mpr (by exact_mod_cast h0)
    clear hM h0
    omega
  · obtain ⟨M, hM⟩ : ∃ M : ℕ, M = (n + 1) * (n + 1) := ⟨_, rfl⟩
    rw [← hM]
    have h0 : d2v < ((M : ℕ) : ℚ) := by rw [hM]; push_cast; linarith
    have h4 : ⌊d2v⌋ < ((M : ℕ) : ℤ) := Int.floor_lt.mpr (by exact_mod_cast h0)
    have hM1 : 0 < M := by rw [hM]; positivity
    clear hM h0
    omega

/-- Evaluation of the empirical semivariogram on the Scenario B input with
step_size 1 and max_range 3. -/
theorem calc_sv_pts4 :
    calculate_semivariance pts4 1 3 = [(1, 1/2, 3), (2, 2, 2), (3, 9/2, 1)] := by
  have b1 : binOf 1 1 = 1 := binOf_eval 1 1 (by norm_num) (by norm_num)
  have b4 : binOf 1 4 = 2 := binOf_eval 4 2 (by norm_num) (by norm_num)
  have b9 : binOf 1 9 = 3 := binOf_eval 9 3 (by norm_num) (by norm_num)
  have hmax : maxBinIdx 1 3 = 3 := by
    unfold maxBinIdx
    norm_num
    exact b9
  have kp : keptPairs pts4 3 = pairsOf pts4 := by
    norm_num [keptPairs, pairsOf, List.filter, d2]
  have c0 : pairCountIn pts4 1 3 0 = 0 := by
    norm_num [pairCountIn, kp, pairsOf, List.filter, d2, b1, b4, b9]
  have c1 : pairCountIn pts4 1 3 1 = 3 := by
    norm_num [pairCountIn, kp, pairsOf, List.filter, d2, b1, b4, b9]
  have c2 : pairCountIn pts4 1 3 2 = 2 := by
    norm_num [pairCountIn, kp, pairsOf, List.filter, d2, b1, b4, b9]
  have c3 : pairCountIn pts4 1 3 3 = 1 := by
    norm_num [pairCountIn, kp, pairsOf, List.filter, d2, b1, b4, b9]
  have s1 : sqDiffSumIn pts4 1 3 1 = 3 := by
    norm_num [sqDiffSumIn, kp, pairsOf, List.filter, d2, b1, b4, b9]
  have s2 : sqDiffSumIn pts4 1 3 2 = 8 := by
    norm_num [sqDiffSumIn, kp, pairsOf, List.filter, d2, b1, b4, b9]
  have s3 : sqDiffSumIn pts4 1 3 3 = 9 := by
    norm_num [sqDiffSumIn, kp, pairsOf, List.filter, d2, b1, b4, b9]
  unfold calculate_semivariance
  rw [hmax]
  norm_num [List.range_succ, List.filterMap_cons, c0, c1, c2, c3, s1, s2, s3]

/-- C5 counterexample: on Scenario B itself (step_size 1, max_range 3) the
output contains a lag bin with index 3, yet ceil(max_range/step_size) = 3,
so three uniform bins (indices 0, 1, 2) do not cover the closed interval
from 0 to max_range: the pair at distance exactly max_range falls into bin
floor(3/1) = 3. -/
theorem C5_counterexample :
    (3, (9:ℚ)/2, (1:ℕ)) ∈ calculate_semivariance pts4 1 3 ∧
    numBinsSpec 1 3 = 3 ∧ ¬ (3 < numBinsSpec 1 3) := by
  refine ⟨?_, ?_, ?_⟩
  · rw [calc_sv_pts4]; simp
  · unfold numBinsSpec; norm_num; rfl
  · unfold numBinsSpec; norm_num

/-- C5 (amended): the empirical semivariogram of four collinear points
spaced one unit apart with step_size 1 and max_range 3 has exactly three
lag bins, with pair counts 3, 2, 1 in order of increasing distance; and in
general every emitted lag-bin index is at most floor(max_range/step_size),
i.e. floor(max_range/step_size) + 1 uniform bins (rather than
ceil(max_range/step_size)) cover the closed interval [0, max_range]. -/
theorem scenarioB_and_bin_bound :
    calculate_semivariance pts4 1 3 = [(1, 1/2, 3), (2, 2, 2), (3, 9/2, 1)] ∧
    ∀ (pts : List SampleP) (step maxr : ℚ), 0 < step → 0 ≤ maxr →
      ∀ e ∈ calculate_semivariance pts step maxr,
        e.1 < Int.toNat ⌊maxr / step⌋ + 1 := by
  refine ⟨calc_sv_pts4, ?_⟩
  intro pts step maxr hs hm e he
  rcases List.mem_filterMap.mp he with ⟨a, ha, hfa⟩
  have hamem := List.mem_range.mp ha
  have h1 : e.1 = a := by
    by_cases hz : pairCountIn pts step maxr a = 0
    · rw [if_pos hz] at hfa; cases hfa
    · rw [if_neg hz] at hfa
      exact (congrArg Prod.fst (Option.some.inj hfa)).symm
  rw [h1, ← maxBinIdx_eq step maxr hs hm]
  exact hamem

/-- Witness for the amended C5: the general bin-index bound applied to the
Scenario B input at a concrete output entry. -/
theorem scenarioB_and_bin_bound_witness :
    0 < (1:ℚ) ∧ (0:ℚ) ≤ 3 ∧ ((1:ℕ), (1:ℚ)/2, (3:ℕ)).1 < Int.toNat ⌊(3:ℚ) / 1⌋ + 1 :=
  ⟨by norm_num, by norm_num,
    scenarioB_and_bin_bound.2 pts4 1 3 (by norm_num) (by norm_num) (1, 1/2, 3)
      (by rw [calc_sv_pts4]; simp)⟩

/-- Witness for C4: the characterization applied to the Scenario B input,
read off at lag bin 1. -/
theorem semivariance_characterization_witness :
    0 < (1:ℚ) ∧ (0:ℚ) ≤ 3 ∧
      (pairCountIn pts4 1 3 1 = 3 ∧ (3:ℕ) ≠ 0 ∧
        (1:ℚ)/2 = sqDiffSumIn pts4 1 3 1 / (2 * ((3:ℕ) : ℚ))) :=
  ⟨by norm_num, by norm_num,
    ((semivariance_characterization pts4 1 3 (by norm_num) (by norm_num)).2.2.2.2
        1 (1/2) 3).mp (by rw [calc_sv_pts4]; simp)⟩

theorem okMatrix_castSucc_castSucc (γ : ℝ → ℝ) {k : ℕ} (ns : Fin k → SampleP)
    (i j : Fin k) :
    okMatrix γ ns i.castSucc j.castSucc = γ (distP (ns i) (ns j)) := by
  unfold okMatrix
  rw [dif_neg (Fin.castSucc_lt_last i).ne, dif_neg (Fin.castSucc_lt_last j).ne]
  simp

theorem okMatrix_castSucc_last (γ : ℝ → ℝ) {k : ℕ} (ns : Fin k → SampleP) (i : Fin k) :
    okMatrix γ ns i.castSucc (Fin.last k) = 1 := by
  unfold okMatrix
  rw [dif_neg (Fin.castSucc_lt_last i).ne, dif_pos rfl]

theorem okMatrix_last_castSucc (γ : ℝ → ℝ) {k : ℕ} (ns : Fin k → SampleP) (j : Fin k) :
    okMatrix γ ns (Fin.last k) j.castSucc = 1 := by
  unfold okMatrix
  rw [dif_pos rfl, if_neg (Fin.castSucc_lt_last j).ne]

theorem okMatrix_last_last (γ : ℝ → ℝ) {k : ℕ} (ns : Fin k → SampleP) :
    okMatrix γ ns (Fin.last k) (Fin.last k) = 0 := by
  unfold okMatrix
  rw [dif_pos rfl, if_pos rfl]

theorem okRhs_castSucc (γ : ℝ → ℝ) {k : ℕ} (ns : Fin k → SampleP) (q : ℚ × ℚ)
    (i : Fin k) : okRhs γ ns q i.castSucc = γ (distQ q (ns i)) := by
  unfold okRhs
  rw [dif_neg (Fin.castSucc_lt_last i).ne]
  simp

theorem okRhs_last (γ : ℝ → ℝ) {k : ℕ} (ns : Fin k → SampleP) (q : ℚ × ℚ) :
    okRhs γ ns q (Fin.last k) = 1 := by
  unfold okRhs
  rw [dif_pos rfl]

theorem okMulVec_castSucc (γ : ℝ → ℝ) {k : ℕ} (ns : Fin k → SampleP)
    (w : Fin (k + 1) → ℝ) (i : Fin k) :
    (okMatrix γ ns).mulVec w i.castSucc
      = (∑ j : Fin k, γ (distP (ns i) (ns j)) * w j.castSucc) + w (Fin.last k) := by
  simp only [Matrix.mulVec, Matrix.dotProduct]
  rw [Fin.sum_univ_castSucc]
  congr 1
  · apply Finset.sum_congr rfl
    intro j _
    rw [okMatrix_castSucc_castSucc]
  · rw [okMatrix_castSucc_last, one_mul]

theorem okMulVec_last (γ : ℝ → ℝ) {k : ℕ} (ns : Fin k → SampleP)
    (w : Fin (k + 1) → ℝ) :
    (okMatrix γ ns).mulVec w (Fin.last k) = ∑ j : Fin k, w j.castSucc := by
  simp only [Matrix.mulVec, Matrix.dotProduct]
  rw [Fin.sum_univ_castSucc, okMatrix_last_last, zero_mul, add_zero]
  apply Finset.sum_congr rfl
  intro j _
  rw [okMatrix_last_castSucc, one_mul]

/-- Row-by-row reading of the Ordinary Kriging system: each neighbor row is
the semivariance balance with the Lagrange multiplier added, and the last
row is the unbiasedness constraint (the weights excluding the multiplier
sum to 1). -/
theorem okSolves_iff (γ : ℝ → ℝ) {k : ℕ} (ns : Fin k → SampleP) (q : ℚ × ℚ)
    (w : Fin (k + 1) → ℝ) :
    okSolves γ ns q w ↔
      ((∀ i : Fin k, (∑ j : Fin k, γ (distP (ns i) (ns j)) * w j.castSucc)
          + w (Fin.last k) = γ (distQ q (ns i))) ∧
        (∑ j : Fin k, w j.castSucc) = 1) := by
  unfold okSolves
  rw [funext_iff]
  constructor
  · intro h
    refine ⟨fun i => ?_, ?_⟩
    · have hi := h i.castSucc
      rwa [okMulVec_castSucc, okRhs_castSucc] at hi
    · have hl := h (Fin.last k)
      rwa [okMulVec_last, okRhs_last] at hl
  · rintro ⟨hrows, hsum⟩ i
    refine Fin.lastCases ?_ ?_ i
    · rw [okMulVec_last, okRhs_last]
      exact hsum
    · intro j
      rw [okMulVec_castSucc, okRhs_castSucc]
      exact hrows j

theorem skSolves_iff (γ : ℝ → ℝ) {k : ℕ} (ns : Fin k → SampleP) (q : ℚ × ℚ)
    (w : Fin k → ℝ) :
    skSolves γ ns q w ↔
      ∀ i : Fin k, (∑ j : Fin k, γ (distP (ns i) (ns j)) * w j) = γ (distQ q (ns i)) := by
  unfold skSolves
  rw [funext_iff]
  apply forall_congr'
  intro i
  simp only [Matrix.mulVec, Matrix.dotProduct, skMatrix, skRhs]

/-- Solutions of a linear system with nonzero determinant are unique. -/
theorem mulVec_cancel {n : ℕ} (A : Matrix (Fin n) (Fin n) ℝ) (hdet : A.det ≠ 0)
    {v v' : Fin n → ℝ} (h : A.mulVec v = A.mulVec v') : v = v' := by
  have hu : IsUnit A.det := isUnit_iff_ne_zero.mpr hdet
  have h1 : A⁻¹ * A = 1 := Matrix.nonsing_inv_mul A hu
  have h2 : A⁻¹.mulVec (A.mulVec v) = A⁻¹.mulVec (A.mulVec v') := by rw [h]
  rwa [Matrix.mulVec_mulVec, Matrix.mulVec_mulVec, h1, Matrix.one_mulVec,
    Matrix.one_mulVec] at h2

/-- C3: for every valid Ordinary Kriging prediction with neighbor count at
least 2, the returned weights excluding the trailing Lagrange multiplier
sum to 1 (exactly, in the real-number model; hence within any numerical
tolerance). -/
theorem ok_weights_sum_one (γ : ℝ → ℝ) (pts : List SampleP) (q : ℚ × ℚ) (maxN : ℕ)
    (r : PredictionResult) (hk : 2 ≤ (nearestNeighbors pts q maxN).length)
    (hr : ordinary_kriging γ pts q maxN r) :
    (r.weights.take (nearestNeighbors pts q maxN).length).sum = 1 := by
  obtain ⟨w, hw, rfl⟩ := hr
  have hweights : (mkOkResult γ (nearestNeighbors pts q maxN).get q w).weights
      = List.ofFn w := rfl
  rw [hweights, List.ofFn_succ', List.concat_eq_append, List.take_left']
  · rw [List.sum_ofFn]
    exact ((okSolves_iff γ _ q w).mp hw).2
  · exact List.length_ofFn _

/-- C10: for every successful Ordinary Kriging prediction, the third
element of the returned tuple (the reported mean) equals the final element
of the returned weight vector, i.e. the Lagrange multiplier of the solved
(k+1) x (k+1) system. -/
theorem ok_mean_is_last_weight (γ : ℝ → ℝ) (pts : List SampleP) (q : ℚ × ℚ)
    (maxN : ℕ) (r : PredictionResult) (hr : ordinary_kriging γ pts q maxN r) :
    r.weights.getLast? = some r.mean := by
  obtain ⟨w, hw, rfl⟩ := hr
  have hweights : (mkOkResult γ (nearestNeighbors pts q maxN).get q w).weights
      = List.ofFn w := rfl
  have hmean : (mkOkResult γ (nearestNeighbors pts q maxN).get q w).mean
      = w (Fin.last (nearestNeighbors pts q maxN).length) := rfl
  rw [hweights, hmean, List.ofFn_succ', List.concat_eq_append, List.getLast?_concat]

/-- C1 (amended): for every successful Ordinary Kriging prediction, the
reported estimated_mean is the final solved unknown of the bordered system
(the Lagrange multiplier), while the weighted sum of the neighbors' values
with the solved weights is reported as the estimated value, not as the
mean. -/
theorem ok_mean_is_multiplier (γ : ℝ → ℝ) (pts : List SampleP) (q : ℚ × ℚ)
    (maxN : ℕ) (r : PredictionResult) (hr : ordinary_kriging γ pts q maxN r) :
    ∃ w : Fin ((nearestNeighbors pts q maxN).length + 1) → ℝ,
      okSolves γ (nearestNeighbors pts q maxN).get q w ∧
      r.mean = w (Fin.last (nearestNeighbors pts q maxN).length) ∧
      r.value = ∑ i : Fin (nearestNeighbors pts q maxN).length,
        w i.castSucc * (((nearestNeighbors pts q maxN).get i).value : ℝ) := by
  obtain ⟨w, hw, rfl⟩ := hr
  exact ⟨w, hw, rfl, rfl⟩

/-- C7: the returned weight vector has length (number of neighbors used)+1
for Ordinary Kriging (the extra entry being the Lagrange multiplier) and
exactly the number of neighbors used for Simple Kriging. -/
theorem weights_length_spec (γ : ℝ → ℝ) (pts : List SampleP) (q : ℚ × ℚ)
    (maxN : ℕ) (m : ℝ) (r r' : PredictionResult) :
    (ordinary_kriging γ pts q maxN r →
      r.weights.length = (nearestNeighbors pts q maxN).length + 1) ∧
    (simple_kriging γ pts q m maxN r' →
      r'.weights.length = (nearestNeighbors pts q maxN).length) := by
  constructor
  · rintro ⟨w, hw, rfl⟩
    exact List.length_ofFn w
  · rintro ⟨w, hw, rfl⟩
    exact List.length_ofFn w

/-- C8: the neighbor selector returns min(max_no_neighbors, number of known
points) points; together with the unselected remainder they are a
permutation of the known points, every selected point is at most as far
from the query as every unselected one, and when max_no_neighbors is at
least the number of known points, the whole known-point set is used (no
error). -/
theorem nearest_neighbors_spec (pts : List SampleP) (hne : pts ≠ []) (q : ℚ × ℚ)
    (maxN : ℕ) :
    (nearestNeighbors pts q maxN).length = min maxN pts.length ∧
    ((nearestNeighbors pts q maxN) ++ (sortedByDist pts q).drop maxN).Perm pts ∧
    (∀ a ∈ nearestNeighbors pts q maxN, ∀ b ∈ (sortedByDist pts q).drop maxN,
      distQ q a ≤ distQ q b) ∧
    (pts.length ≤ maxN → (nearestNeighbors pts q maxN).Perm pts) := by
  haveI hTot : IsTotal SampleP (fun a b => d2q q a ≤ d2q q b) :=
    ⟨fun a b => le_total _ _⟩
  haveI hTrans : IsTrans SampleP (fun a b => d2q q a ≤ d2q q b) :=
    ⟨fun a b c hab hbc => le_trans hab hbc⟩
  have hsorted : List.Sorted (fun a b => d2q q a ≤ d2q q b) (sortedByDist pts q) :=
    List.sorted_insertionSort _ pts
  refine ⟨?_, ?_, ?_, ?_⟩
  · rw [nearestNeighbors, List.length_take, sortedByDist, List.length_insertionSort]
  · rw [nearestNeighbors, List.take_append_drop]
    exact List.perm_insertionSort _ pts
  · have hpw : List.Pairwise (fun a b => d2q q a ≤ d2q q b)
        ((nearestNeighbors pts q maxN) ++ (sortedByDist pts q).drop maxN) := by
      rw [nearestNeighbors, List.take_append_drop]
      exact hsorted
    intro a ha b hb
    have hle : d2q q a ≤ d2q q b := (List.pairwise_append.mp hpw).2.2 a ha b hb
    unfold distQ
    apply Real.sqrt_le_sqrt
    exact_mod_cast hle
  · intro h
    have hlen : (sortedByDist pts q).length ≤ maxN := by
      rw [sortedByDist, List.length_insertionSort]
      exact h
    rw [nearestNeighbors, List.take_of_length_le hlen]
    exact List.perm_insertionSort _ pts

/-- C6: a computed error variance that is negative by no more than the
tolerance is clamped to zero and reported with a warning (not raised),
while a variance below the negated tolerance raises InvalidModelError;
nonnegative variances are passed through. -/
theorem variance_postprocess_spec (tol v : ℚ) (htol : 0 < tol) :
    (0 ≤ v → postprocessVariance tol v = Except.ok (v, false)) ∧
    (-tol ≤ v → v < 0 → postprocessVariance tol v = Except.ok (0, true)) ∧
    (v < -tol → postprocessVariance tol v = Except.error KrigingError.invalidModel) := by
  unfold postprocessVariance
  refine ⟨fun h => by rw [if_pos h], fun h1 h2 => ?_, fun h => ?_⟩
  · rw [if_neg (not_le.mpr h2), if_pos h1]
  · have hneg : ¬ (0 ≤ v) := by intro h0; linarith
    rw [if_neg hneg, if_neg (not_le.mpr h)]

/-- Witness for C6: a variance of -1e-16 against a tolerance of 1e-6 is
clamped to zero with a warning. -/
theorem variance_postprocess_spec_witness :
    0 < (1 : ℚ)/1000000 ∧
    postprocessVariance ((1 : ℚ)/1000000) (-1/10000000000000000)
      = Except.ok (0, true) :=
  ⟨by norm_num,
    (variance_postprocess_spec ((1 : ℚ)/1000000) (-1/10000000000000000)
      (by norm_num)).2.1 (by norm_num) (by norm_num)⟩

theorem sum_mul_single {k : ℕ} (i : Fin k) (g : Fin k → ℝ) :
    (∑ j : Fin k, g j * (Pi.single i (1:ℝ) : Fin k → ℝ) j) = g i := by
  have h : ∀ j : Fin k, g j * (Pi.single i (1:ℝ) : Fin k → ℝ) j
      = if j = i then g j else 0 := by
    intro j
    by_cases hji : j = i
    · subst hji; simp
    · rw [Pi.single_eq_of_ne hji]; simp [hji]
  rw [Finset.sum_congr rfl (fun j _ => h j), Finset.sum_ite_eq' Finset.univ i]
  simp

theorem sum_single_mul {k : ℕ} (i : Fin k) (g : Fin k → ℝ) :
    (∑ j : Fin k, (Pi.single i (1:ℝ) : Fin k → ℝ) j * g j) = g i := by
  rw [Finset.sum_congr rfl (fun j _ => mul_comm ((Pi.single i (1:ℝ) : Fin k → ℝ) j) (g j))]
  exact sum_mul_single i g

theorem single_castSucc_comp {k : ℕ} (i : Fin k) (j : Fin k) :
    (Pi.single i.castSucc (1:ℝ) : Fin (k+1) → ℝ) j.castSucc
      = (Pi.single i (1:ℝ) : Fin k → ℝ) j := by
  by_cases hji : j = i
  · subst hji; simp
  · rw [Pi.single_eq_of_ne hji,
      Pi.single_eq_of_ne (fun hc => hji (Fin.castSucc_inj.mp hc))]

theorem single_castSucc_last {k : ℕ} (i : Fin k) :
    (Pi.single i.castSucc (1:ℝ) : Fin (k+1) → ℝ) (Fin.last k) = 0 :=
  Pi.single_eq_of_ne (Fin.castSucc_lt_last i).ne' 1

/-- When the query sits at the coordinates of neighbor i, query distances
coincide with distances to neighbor i. -/
theorem distQ_of_at (q : ℚ × ℚ) {k : ℕ} (ns : Fin k → SampleP) (i : Fin k)
    (hq : q = ((ns i).x, (ns i).y)) (p : SampleP) :
    distQ q p = distP (ns i) p := by
  subst hq
  rfl

/-- The indicator vector of neighbor i (with zero multiplier) solves the
Ordinary Kriging system whenever the query sits at neighbor i. -/
theorem okSolves_single {k : ℕ} (γ : ℝ → ℝ) (ns : Fin k → SampleP) (q : ℚ × ℚ)
    (i : Fin k) (hq : q = ((ns i).x, (ns i).y)) :
    okSolves γ ns q (Pi.single i.castSucc (1:ℝ)) := by
  rw [okSolves_iff]
  constructor
  · intro i'
    rw [single_castSucc_last, add_zero]
    rw [Finset.sum_congr rfl
      (fun j _ => by rw [single_castSucc_comp i j])]
    rw [sum_mul_single i (fun j => γ (distP (ns i') (ns j)))]
    rw [distQ_of_at q ns i hq, distP_comm]
  · rw [Finset.sum_congr rfl (fun j _ => single_castSucc_comp i j)]
    calc (∑ j : Fin k, (Pi.single i (1:ℝ) : Fin k → ℝ) j)
        = ∑ j : Fin k, (1:ℝ) * (Pi.single i (1:ℝ) : Fin k → ℝ) j := by
          apply Finset.sum_congr rfl
          intro j _
          rw [one_mul]
      _ = 1 := sum_mul_single i (fun _ => (1:ℝ))

/-- The indicator vector of neighbor i solves the Simple Kriging system
whenever the query sits at neighbor i. -/
theorem skSolves_single {k : ℕ} (γ : ℝ → ℝ) (ns : Fin k → SampleP) (q : ℚ × ℚ)
    (i : Fin k) (hq : q = ((ns i).x, (ns i).y)) :
    skSolves γ ns q (Pi.single i (1:ℝ)) := by
  rw [skSolves_iff]
  intro i'
  rw [sum_mul_single i (fun j => γ (distP (ns i') (ns j)))]
  rw [distQ_of_at q ns i hq, distP_comm]

/-- C2 (amended): with a model whose semivariance at distance zero is zero
(zero nugget), predicting at the exact location of neighbor i through a
nonsingular Ordinary or Simple Kriging system reproduces that neighbor's
value exactly with error variance exactly zero.  (With a positive nugget
the estimate is still exact but the error variance equals the nugget; see
the counterexample.) -/
theorem exact_interpolation (γ : ℝ → ℝ) (hγ : γ 0 = 0) {k : ℕ}
    (ns : Fin k → SampleP) (q : ℚ × ℚ) (i : Fin k)
    (hq : q = ((ns i).x, (ns i).y))
    (w : Fin (k + 1) → ℝ) (hw : okSolves γ ns q w)
    (hdet : (okMatrix γ ns).det ≠ 0)
    (w' : Fin k → ℝ) (hw' : skSolves γ ns q w')
    (hdet' : (skMatrix γ ns).det ≠ 0) (m : ℝ) :
    (mkOkResult γ ns q w).value = ((ns i).value : ℝ) ∧
    (mkOkResult γ ns q w).variance = 0 ∧
    (mkSkResult γ ns q m w').value = ((ns i).value : ℝ) ∧
    (mkSkResult γ ns q m w').variance = 0 := by
  have hcan := okSolves_single γ ns q i hq
  have hwe : w = Pi.single i.castSucc (1:ℝ) := by
    apply mulVec_cancel (okMatrix γ ns) hdet
    rw [hw, hcan]
  have hcan' := skSolves_single γ ns q i hq
  have hwe' : w' = Pi.single i (1:ℝ) := by
    apply mulVec_cancel (skMatrix γ ns) hdet'
    rw [hw', hcan']
  have hq0 : distQ q (ns i) = 0 := by
    rw [distQ_of_at q ns i hq, distP_self]
  subst hwe hwe'
  refine ⟨?_, ?_, ?_, ?_⟩
  · show (∑ j : Fin k, (Pi.single i.castSucc (1:ℝ) : Fin (k+1) → ℝ) j.castSucc
        * ((ns j).value : ℝ)) = ((ns i).value : ℝ)
    rw [Finset.sum_congr rfl (fun j _ => by rw [single_castSucc_comp i j])]
    exact sum_single_mul i (fun j => ((ns j).value : ℝ))
  · show (∑ j : Fin k, (Pi.single i.castSucc (1:ℝ) : Fin (k+1) → ℝ) j.castSucc
        * γ (distQ q (ns j))) + (Pi.single i.castSucc (1:ℝ) : Fin (k+1) → ℝ) (Fin.last k) = 0
    rw [single_castSucc_last, add_zero]
    rw [Finset.sum_congr rfl (fun j _ => by rw [single_castSucc_comp i j])]
    rw [sum_single_mul i (fun j => γ (distQ q (ns j)))]
    rw [hq0, hγ]
  · show m + (∑ j : Fin k, (Pi.single i (1:ℝ) : Fin k → ℝ) j * (((ns j).value : ℝ) - m))
        = ((ns i).value : ℝ)
    rw [sum_single_mul i (fun j => ((ns j).value : ℝ) - m)]
    ring
  · show (∑ j : Fin k, (Pi.single i (1:ℝ) : Fin k → ℝ) j * γ (distQ q (ns j))) = 0
    rw [sum_single_mul i (fun j => γ (distQ q (ns j)))]
    rw [hq0, hγ]

/-- Distance evaluation from an exact square of the squared distance. -/
theorem distP_eval (p r : SampleP) (c : ℚ) (hc : 0 ≤ c) (h : d2 p r = c ^ 2) :
    distP p r = (c : ℝ) := by
  unfold distP
  rw [h]
  push_cast
  exact Real.sqrt_sq (by exact_mod_cast hc)

theorem distQ_eval (q : ℚ × ℚ) (p : SampleP) (c : ℚ) (hc : 0 ≤ c)
    (h : d2q q p = c ^ 2) : distQ q p = (c : ℝ) := by
  unfold distQ
  rw [h]
  push_cast
  exact Real.sqrt_sq (by exact_mod_cast hc)

theorem hNN : nearestNeighbors [P0, P2] q1 2 = [P0, P2] := by
  norm_num [nearestNeighbors, sortedByDist, List.insertionSort, List.orderedInsert,
    d2q, P0, P2, q1]

theorem dP_P0_P2 : distP P0 P2 = 2 := by
  have := distP_eval P0 P2 2 (by norm_num) (by norm_num [d2, P0, P2])
  exact_mod_cast this

theorem dP_P2_P0 : distP P2 P0 = 2 := by
  have := distP_eval P2 P0 2 (by norm_num) (by norm_num [d2, P0, P2])
  exact_mod_cast this

theorem dQ_P0 : distQ q1 P0 = 1 := by
  have := distQ_eval q1 P0 1 (by norm_num) (by norm_num [d2q, P0, q1])
  exact_mod_cast this

theorem dQ_P2 : distQ q1 P2 = 1 := by
  have := distQ_eval q1 P2 1 (by norm_num) (by norm_num [d2q, P2, q1])
  exact_mod_cast this

theorem demo_okSolves :
    okSolves gammaLin (fun i : Fin 2 => [P0, P2].get i) q1 ![1/2, 1/2, 0] := by
  have hns0 : (fun i : Fin 2 => [P0, P2].get i) 0 = P0 := rfl
  have hns1 : (fun i : Fin 2 => [P0, P2].get i) 1 = P2 := rfl
  have hw0 : (![1/2, 1/2, 0] : Fin 3 → ℝ) ((0 : Fin 2).castSucc) = 1/2 := rfl
  have hw1 : (![1/2, 1/2, 0] : Fin 3 → ℝ) ((1 : Fin 2).castSucc) = 1/2 := rfl
  have hwl : (![1/2, 1/2, 0] : Fin 3 → ℝ) (Fin.last 2) = 0 := rfl
  rw [okSolves_iff]
  constructor
  · intro i
    fin_cases i
    · rw [Fin.sum_univ_two]
      norm_num [hns0, hns1, hw0, hw1, hwl, gammaLin, distP_self, dP_P0_P2, dQ_P0]
    · rw [Fin.sum_univ_two]
      norm_num [hns0, hns1, hw0, hw1, hwl, gammaLin, distP_self, dP_P2_P0, dQ_P2]
  · rw [Fin.sum_univ_two]
    norm_num [hw0, hw1]

theorem demo_ok : ordinary_kriging gammaLin [P0, P2] q1 2 demoRes := by
  show okPredictOn gammaLin (nearestNeighbors [P0, P2] q1 2) q1 demoRes
  rw [hNN]
  exact ⟨![1/2, 1/2, 0], demo_okSolves, rfl⟩

theorem demoRes_mean : demoRes.mean = 0 := rfl

theorem demoRes_value : demoRes.value = 2 := by
  show (∑ i : Fin 2, (![1/2, 1/2, 0] : Fin 3 → ℝ) i.castSucc
      * (((fun i : Fin 2 => [P0, P2].get i) i).value : ℝ)) = 2
  rw [Fin.sum_univ_two]
  norm_num [P0, P2]

/-- C1 counterexample: a successful Ordinary Kriging prediction whose
reported mean (0, the Lagrange multiplier) differs from the weighted mean
of the neighbors' values with the solved weights (2, which is by
construction the estimated value). -/
theorem C1_counterexample :
    ordinary_kriging gammaLin [P0, P2] q1 2 demoRes ∧ demoRes.mean ≠ demoRes.value := by
  refine ⟨demo_ok, ?_⟩
  rw [demoRes_mean, demoRes_value]
  norm_num

theorem demo_skSolves :
    skSolves gammaLin (fun i : Fin 2 => [P0, P2].get i) q1 ![1/2, 1/2] := by
  have hns0 : (fun i : Fin 2 => [P0, P2].get i) 0 = P0 := rfl
  have hns1 : (fun i : Fin 2 => [P0, P2].get i) 1 = P2 := rfl
  rw [skSolves_iff]
  intro i
  fin_cases i
  · rw [Fin.sum_univ_two]
    norm_num [hns0, hns1, gammaLin, distP_self, dP_P0_P2, dQ_P0]
  · rw [Fin.sum_univ_two]
    norm_num [hns0, hns1, gammaLin, distP_self, dP_P2_P0, dQ_P2]

theorem demo_sk : simple_kriging gammaLin [P0, P2] q1 3 2 demoSkRes := by
  show skPredictOn gammaLin (nearestNeighbors [P0, P2] q1 2) q1 3 demoSkRes
  rw [hNN]
  exact ⟨![1/2, 1/2], demo_skSolves, rfl⟩

theorem dP_P5_P7 : distP P5 P7 = 1 := by
  have := distP_eval P5 P7 1 (by norm_num) (by norm_num [d2, P5, P7])
  exact_mod_cast this

theorem dP_P7_P5 : distP P7 P5 = 1 := by
  have := distP_eval P7 P5 1 (by norm_num) (by norm_num [d2, P5, P7])
  exact_mod_cast this

theorem dQ00_P5 : distQ q00 P5 = 0 := by
  have := distQ_eval q00 P5 0 (by norm_num) (by norm_num [d2q, P5, q00])
  exact_mod_cast this

theorem okM_nug : okMatrix gammaNug ![P5, P7] = !![1, 2, 1; 2, 1, 1; 1, 1, 0] := by
  ext i j
  fin_cases i <;> fin_cases j <;>
    simp [okMatrix, gammaNug, Fin.last, Fin.ext_iff, distP_self, dP_P5_P7, dP_P7_P5,
      Fin.castPred_zero, Fin.castPred_one, Matrix.vecHead, Matrix.vecTail] <;>
    norm_num [dP_P5_P7, dP_P7_P5]

theorem okM_lin : okMatrix gammaLin ![P5, P7] = !![0, 1, 1; 1, 0, 1; 1, 1, 0] := by
  ext i j
  fin_cases i <;> fin_cases j <;>
    simp [okMatrix, gammaLin, Fin.last, Fin.ext_iff, distP_self, dP_P5_P7, dP_P7_P5,
      Fin.castPred_zero, Fin.castPred_one, Matrix.vecHead, Matrix.vecTail] <;>
    norm_num [dP_P5_P7, dP_P7_P5]

theorem skM_lin : skMatrix gammaLin ![P5, P7] = !![0, 1; 1, 0] := by
  ext i j
  fin_cases i <;> fin_cases j <;>
    simp [skMatrix, gammaLin, distP_self, dP_P5_P7, dP_P7_P5, Matrix.vecHead, Matrix.vecTail]

theorem okM_lin_det : (okMatrix gammaLin ![P5, P7]).det ≠ 0 := by
  rw [okM_lin, Matrix.det_fin_three]
  norm_num [Matrix.vecHead, Matrix.vecTail]

theorem skM_lin_det : (skMatrix gammaLin ![P5, P7]).det ≠ 0 := by
  rw [skM_lin, Matrix.det_fin_two]
  norm_num

theorem mkOkResult_single_value (γ : ℝ → ℝ) {k : ℕ} (ns : Fin k → SampleP)
    (q : ℚ × ℚ) (i : Fin k) :
    (mkOkResult γ ns q (Pi.single i.castSucc (1:ℝ))).value = ((ns i).value : ℝ) := by
  show (∑ j : Fin k, (Pi.single i.castSucc (1:ℝ) : Fin (k+1) → ℝ) j.castSucc
      * ((ns j).value : ℝ)) = ((ns i).value : ℝ)
  rw [Finset.sum_congr rfl (fun j _ => by rw [single_castSucc_comp i j])]
  exact sum_single_mul i (fun j => ((ns j).value : ℝ))

theorem mkOkResult_single_variance (γ : ℝ → ℝ) {k : ℕ} (ns : Fin k → SampleP)
    (q : ℚ × ℚ) (i : Fin k) :
    (mkOkResult γ ns q (Pi.single i.castSucc (1:ℝ))).variance = γ (distQ q (ns i)) := by
  show (∑ j : Fin k, (Pi.single i.castSucc (1:ℝ) : Fin (k+1) → ℝ) j.castSucc
      * γ (distQ q (ns j))) + (Pi.single i.castSucc (1:ℝ) : Fin (k+1) → ℝ) (Fin.last k)
      = γ (distQ q (ns i))
  rw [single_castSucc_last, add_zero,
    Finset.sum_congr rfl (fun j _ => by rw [single_castSucc_comp i j])]
  exact sum_single_mul i (fun j => γ (distQ q (ns j)))

theorem okM_nug_det2 : (okMatrix gammaNug ![P5, P7]).det = 2 := by
  rw [okM_nug, Matrix.det_fin_three]
  norm_num [Matrix.vecHead, Matrix.vecTail]

/-- C2 counterexample: with the nugget-1 linear model, the query at the
location of the first neighbor has a unique Ordinary Kriging solution (the
bordered matrix has determinant 2, nonzero) which reproduces the value 5
exactly but reports error variance 1, not approximately 0. -/
theorem C2_counterexample :
    okSolves gammaNug ![P5, P7] q00 (Pi.single ((0 : Fin 2).castSucc) (1:ℝ)) ∧
    (okMatrix gammaNug ![P5, P7]).det = 2 ∧
    (mkOkResult gammaNug ![P5, P7] q00 (Pi.single ((0 : Fin 2).castSucc) (1:ℝ))).value
      = ((5 : ℚ) : ℝ) ∧
    (mkOkResult gammaNug ![P5, P7] q00 (Pi.single ((0 : Fin 2).castSucc) (1:ℝ))).variance
      = 1 := by
  refine ⟨okSolves_single gammaNug ![P5, P7] q00 0 rfl, okM_nug_det2, ?_, ?_⟩
  · rw [mkOkResult_single_value]
    norm_num [P5]
  · rw [mkOkResult_single_variance]
    show gammaNug (distQ q00 P5) = 1
    rw [dQ00_P5]
    norm_num [gammaNug]

/-- Witness for the amended C2 on concrete data: the zero-nugget linear
model, two points one unit apart, query at the first point. -/
theorem exact_interpolation_witness :
    (mkOkResult gammaLin ![P5, P7] q00 (Pi.single ((0 : Fin 2).castSucc) (1:ℝ))).value
        = (((![P5, P7] (0 : Fin 2)).value : ℚ) : ℝ) ∧
    (mkOkResult gammaLin ![P5, P7] q00 (Pi.single ((0 : Fin 2).castSucc) (1:ℝ))).variance = 0 ∧
    (mkSkResult gammaLin ![P5, P7] q00 6 (Pi.single (0 : Fin 2) (1:ℝ))).value
        = (((![P5, P7] (0 : Fin 2)).value : ℚ) : ℝ) ∧
    (mkSkResult gammaLin ![P5, P7] q00 6 (Pi.single (0 : Fin 2) (1:ℝ))).variance = 0 :=
  exact_interpolation gammaLin rfl ![P5, P7] q00 0 rfl
    (Pi.single ((0 : Fin 2).castSucc) (1:ℝ))
    (okSolves_single gammaLin ![P5, P7] q00 0 rfl) okM_lin_det
    (Pi.single (0 : Fin 2) (1:ℝ))
    (skSolves_single gammaLin ![P5, P7] q00 0 rfl) skM_lin_det 6

theorem hNNlen : (nearestNeighbors [P0, P2] q1 2).length = 2 := by
  rw [hNN]
  rfl

/-- Witness for C3 at the demonstration prediction: the first two weights
sum to 1. -/
theorem ok_weights_sum_one_witness :
    2 ≤ (nearestNeighbors [P0, P2] q1 2).length ∧
    (demoRes.weights.take (nearestNeighbors [P0, P2] q1 2).length).sum = 1 :=
  ⟨le_of_eq hNNlen.symm,
    ok_weights_sum_one gammaLin [P0, P2] q1 2 demoRes (le_of_eq hNNlen.symm) demo_ok⟩

/-- Witness for C10 at the demonstration prediction. -/
theorem ok_mean_is_last_weight_witness :
    demoRes.weights.getLast? = some demoRes.mean :=
  ok_mean_is_last_weight gammaLin [P0, P2] q1 2 demoRes demo_ok

/-- Witness for the amended C1 at the demonstration prediction. -/
theorem ok_mean_is_multiplier_witness :
    ∃ w : Fin ((nearestNeighbors [P0, P2] q1 2).length + 1) → ℝ,
      okSolves gammaLin (nearestNeighbors [P0, P2] q1 2).get q1 w ∧
      demoRes.mean = w (Fin.last (nearestNeighbors [P0, P2] q1 2).length) ∧
      demoRes.value = ∑ i : Fin (nearestNeighbors [P0, P2] q1 2).length,
        w i.castSucc * (((nearestNeighbors [P0, P2] q1 2).get i).value : ℝ) :=
  ok_mean_is_multiplier gammaLin [P0, P2] q1 2 demoRes demo_ok

/-- Witness for C7 at the demonstration predictions (Ordinary and Simple). -/
theorem weights_length_spec_witness :
    demoRes.weights.length = (nearestNeighbors [P0, P2] q1 2).length + 1 ∧
    demoSkRes.weights.length = (nearestNeighbors [P0, P2] q1 2).length :=
  ⟨(weights_length_spec gammaLin [P0, P2] q1 2 3 demoRes demoSkRes).1 demo_ok,
    (weights_length_spec gammaLin [P0, P2] q1 2 3 demoRes demoSkRes).2 demo_sk⟩

/-- Witness for C8 (Scenario D): requesting 5 neighbors from 3 known points
uses all 3 points, without error. -/
theorem nearest_neighbors_spec_witness :
    pts3 ≠ [] ∧ (pts3.length ≤ 5) ∧ (nearestNeighbors pts3 q00 5).Perm pts3 :=
  ⟨by simp [pts3], by simp [pts3],
    (nearest_neighbors_spec pts3 (by simp [pts3]) q00 5).2.2.2 (by simp [pts3])⟩
